import Mathlib

/-!
Shallow embedding of the core of the autonomous quantum lab repository
(`autonomous_quantum_lab.py` and `multi_qubit_lab.py`): a noisy single- and
multi-qubit measurement simulator, an SPSA optimizer, and an append-only trial
ledger.  Machine floating point is idealised as `ℝ`; fallible code returns
`Except`, and the mutable RNG / ledger state is threaded explicitly, with the
convention that a raised `ValueError` propagates while leaving all state
mutations performed so far in place (Python exception semantics).
-/

open scoped Real

namespace QuantumLab

/-- Modelled from the spec: Python's `random.Random(seed)` (the CPython
Mersenne Twister implementation is not part of the repository).  The spec only
relies on it being "one explicit, seedable uniform-random source": a
deterministic stream of draws in `[0,1)` fully determined by the seed.  We
model the generator as an infinite stream of real draws plus an explicit
position counter; `mkRandom` below instantiates the stream from a seed by a
64-bit linear congruential recurrence scaled into `[0,1)`. -/
structure Rng where
  stream : ℕ → ℝ
  pos : ℕ

/-- Consume one uniform draw (`random.random()`). -/
def Rng.next (g : Rng) : ℝ × Rng :=
  (g.stream g.pos, ⟨g.stream, g.pos + 1⟩)

/-- Advance the generator by `n` draws (used to state how many draws a call
consumes). -/
def Rng.advance (g : Rng) (n : ℕ) : Rng :=
  ⟨g.stream, g.pos + n⟩

/-- One step of a 64-bit linear congruential recurrence (Knuth's MMIX
multiplier), standing in for the Mersenne Twister state transition. -/
def lcgStep (x : ℕ) : ℕ :=
  (6364136223846793005 * x + 1442695040888963407) % 2 ^ 64

/-- The stream of uniform draws produced from a seed: the top 53 bits of each
successive LCG state, scaled into `[0,1)`. -/
noncomputable def randomStream (seed : ℕ) (n : ℕ) : ℝ :=
  ((lcgStep^[n + 1] seed % 2 ^ 53 : ℕ) : ℝ) / (2 ^ 53 : ℝ)

/-- `random.Random(seed)`: a fresh generator at position 0 whose stream is a
function of the seed alone. -/
noncomputable def mkRandom (seed : ℕ) : Rng :=
  ⟨randomStream seed, 0⟩

/-- One experiment record (`Trial` dataclass).  The free-text `note` field is
elided: it is a human-readable string whose numeric formatting plays no role
in any behavioural property. -/
structure Trial where
  step : ℤ
  theta : ℝ
  shots : ℤ
  p_flip : ℝ
  measured_energy : ℝ

/-- The trial ledger is the time-ordered list of trials
(`DiachronicMemory.trials`); appending is `· ++ [t]`. -/
abbrev DiachronicMemory := List Trial

/-- Python's `min(l, key=f)`: the first element of `l` attaining the minimum
of `f`, `none` on the empty list.  `min` scans left to right and replaces the
current best only on a strictly smaller key, hence ties resolve to the
earliest element. -/
noncomputable def firstMinBy {α : Type} (f : α → ℝ) (l : List α) : Option α :=
  l.foldl
    (fun acc t =>
      match acc with
      | none => some t
      | some b => if f t < f b then some t else some b)
    none

/-- Recursive form of the scan `firstMinBy` performs once the accumulator is
non-empty: `b` is the current best, replaced only on a strictly smaller key. -/
noncomputable def firstMinAux {α : Type} (f : α → ℝ) (b : α) : List α → α
  | [] => b
  | x :: t => if f x < f b then firstMinAux f x t else firstMinAux f b t

/-- `DiachronicMemory.best`: `min(self.trials, key=lambda t: t.measured_energy)`
when non-empty, else `None`. -/
noncomputable def DiachronicMemory.best (m : DiachronicMemory) : Option Trial :=
  firstMinBy (fun t => t.measured_energy) m

/-- `DiachronicMemory.last`: `self.trials[-1] if self.trials else None`. -/
def DiachronicMemory.last (m : DiachronicMemory) : Option Trial :=
  m.getLast?

/-- `QuantumBackendSim._ideal_prob_zero`: for `Ry(theta)|0>` the probability
of measuring `|0>` is `cos²(theta/2)`. -/
noncomputable def ideal_prob_zero (theta : ℝ) : ℝ :=
  Real.cos (theta / 2) ^ 2

/-- The sampling loop of `QuantumBackendSim.measure_expectation_z`: for each
shot draw `r1` (outcome: `+1` when `r1 < p0`, else `-1`), then draw `r2` and
flip the sign when `r2 < p_flip` (the flip draw is consumed on every shot
regardless of the noise level), accumulating the signed outcomes. -/
noncomputable def shot_loop (p0 : ℝ) (p_flip : ℝ) : ℕ → ℤ → Rng → ℤ × Rng
  | 0, total, g => (total, g)
  | n + 1, total, g =>
      let s1 := g.next
      let z : ℤ := if s1.1 < p0 then 1 else -1
      let s2 := s1.2.next
      let z2 : ℤ := if s2.1 < p_flip then -z else z
      shot_loop p0 p_flip n (total + z2) s2.2

/-- `QuantumBackendSim.measure_expectation_z`: validate `shots` and `p_flip`,
then average `shots` noisy signed outcomes.  Errors are raised before any RNG
draw; the returned generator is the (possibly advanced) backend RNG. -/
noncomputable def measure_expectation_z (theta : ℝ) (shots : ℤ) (p_flip : ℝ)
    (g : Rng) : Except String ℝ × Rng :=
  if shots ≤ 0 then (.error "shots must be a positive integer.", g)
  else if ¬ (0 ≤ p_flip ∧ p_flip ≤ 1) then
    (.error "p_flip must be between 0 and 1 inclusive.", g)
  else
    let p0 := ideal_prob_zero theta
    let res := shot_loop p0 p_flip shots.toNat 0 g
    (.ok ((res.1 : ℝ) / (shots : ℝ)), res.2)

/-- `AutonomousQuantumLab.wrap_angle`: `theta % (2π)`, i.e.
`theta - 2π·⌊theta/(2π)⌋` (Python float `%` with a positive divisor). -/
noncomputable def wrap_angle (theta : ℝ) : ℝ :=
  theta - 2 * π * (⌊theta / (2 * π)⌋ : ℝ)

/-- The state of an `AutonomousQuantumLab`: the backend's RNG and the
diachronic memory's trial list. -/
structure AutonomousQuantumLab where
  rng : Rng
  trials : List Trial

/-- `AutonomousQuantumLab.run_experiment`: wrap the angle, measure, and on
success append one `Trial`; on a measurement error no trial is appended (the
exception propagates before `memory.add`). -/
noncomputable def run_experiment (step : ℤ) (theta : ℝ) (shots : ℤ)
    (p_flip : ℝ) (lab : AutonomousQuantumLab) :
    Except String ℝ × AutonomousQuantumLab :=
  let thetaW := wrap_angle theta
  match measure_expectation_z thetaW shots p_flip lab.rng with
  | (.error e, g) => (.error e, { lab with rng := g })
  | (.ok energy, g) =>
      (.ok energy, ⟨g, lab.trials ++ [⟨step, thetaW, shots, p_flip, energy⟩]⟩)

/-- The iteration loop of `spsa_optimize` (`for k in range(1, steps+1)`),
with `fuel` remaining iterations and `k` the current index: decaying gains
`ak = a/k^0.602`, `ck = c/k^0.101`, a Rademacher perturbation drawn from the
backend RNG, two symmetric evaluations, the gradient estimate, the parameter
update, and one logging evaluation through `run_experiment`. -/
noncomputable def spsa_loop (shots : ℤ) (p_flip a c : ℝ) :
    ℕ → ℕ → ℝ → AutonomousQuantumLab →
    Except String Unit × AutonomousQuantumLab
  | 0, _, _, lab => (.ok (), lab)
  | fuel + 1, k, theta, lab =>
      let ak := a / (k : ℝ) ^ (0.602 : ℝ)
      let ck := c / (k : ℝ) ^ (0.101 : ℝ)
      let s := lab.rng.next
      let delta : ℝ := if s.1 < 0.5 then 1 else -1
      match measure_expectation_z (wrap_angle (theta + ck * delta)) shots p_flip s.2 with
      | (.error e, g2) => (.error e, { lab with rng := g2 })
      | (.ok e_plus, g2) =>
        match measure_expectation_z (wrap_angle (theta - ck * delta)) shots p_flip g2 with
        | (.error e, g3) => (.error e, { lab with rng := g3 })
        | (.ok e_minus, g3) =>
          let g_hat := (e_plus - e_minus) / (2 * ck * delta)
          let theta2 := wrap_angle (theta - ak * g_hat)
          match run_experiment (k : ℤ) theta2 shots p_flip ⟨g3, lab.trials⟩ with
          | (.error e, lab2) => (.error e, lab2)
          | (.ok _, lab2) => spsa_loop shots p_flip a c fuel (k + 1) theta2 lab2

/-- `spsa_optimize`: validate `steps`, `a`, `c` before touching RNG or ledger,
draw the random initial angle, run the loop, and return `memory.best()`. -/
noncomputable def spsa_optimize (shots : ℤ) (p_flip : ℝ) (steps : ℤ)
    (a c : ℝ) (lab : AutonomousQuantumLab) :
    Except String Trial × AutonomousQuantumLab :=
  if steps ≤ 0 then (.error "steps must be positive.", lab)
  else if a ≤ 0 ∨ c ≤ 0 then (.error "a and c must be positive.", lab)
  else
    let s := lab.rng.next
    let theta := s.1 * 2 * π
    match spsa_loop shots p_flip a c steps.toNat 1 theta ⟨s.2, lab.trials⟩ with
    | (.error e, lab2) => (.error e, lab2)
    | (.ok _, lab2) =>
      match DiachronicMemory.best lab2.trials with
      | some t => (.ok t, lab2)
      | none => (.error "Best trial should exist after SPSA.", lab2)

/-- `MultiTrial` dataclass of `multi_qubit_lab.py`. -/
structure MultiTrial where
  step : ℤ
  thetas : List ℝ
  shots : ℤ
  p_flip : ℝ
  measured_energy : ℝ

/-- `MultiMemory.trials`: the multi-qubit trial ledger. -/
abbrev MultiMemory := List MultiTrial

/-- `MultiMemory.best`: `min(self.trials, key=...)` when non-empty else `None`. -/
noncomputable def MultiMemory.best (m : MultiMemory) : Option MultiTrial :=
  firstMinBy (fun t => t.measured_energy) m

/-- `_ry`: the rotation matrix `[[cos(θ/2), -sin(θ/2)], [sin(θ/2), cos(θ/2)]]`
as a flat tuple `(g00, g01, g10, g11)`. -/
noncomputable def ry (theta : ℝ) : ℂ × ℂ × ℂ × ℂ :=
  ((Real.cos (theta / 2) : ℂ), (-Real.sin (theta / 2) : ℂ),
   (Real.sin (theta / 2) : ℂ), (Real.cos (theta / 2) : ℂ))

/-- `_apply_single_qubit_gate`: for every basis index whose bit `qubit` is 0,
pair it with the index having that bit set and apply the 2×2 gate to the
amplitude pair.  The imperative in-place pair update (which reads both old
amplitudes before writing) is rendered as a pointwise functional update. -/
def apply_single_qubit_gate (gate : ℂ × ℂ × ℂ × ℂ) (qubit : ℕ)
    (state : ℕ → ℂ) : ℕ → ℂ :=
  fun i =>
    if i.testBit qubit = false then
      gate.1 * state i + gate.2.1 * state (i ||| 1 <<< qubit)
    else
      gate.2.2.1 * state (i ^^^ 1 <<< qubit) + gate.2.2.2 * state i

/-- `_apply_cnot`: swap the amplitudes of every pair of indices with the
control bit set that differ only in the target bit. -/
def apply_cnot (control target : ℕ) (state : ℕ → ℂ) : ℕ → ℂ :=
  fun i =>
    if i.testBit control = true then
      (if i.testBit target = false then state (i ||| 1 <<< target)
       else state (i ^^^ 1 <<< target))
    else state i

/-- `_statevector_from_thetas`: start at the all-zero basis state, apply one
`Ry` per qubit in order, then the nearest-neighbour CNOT chain. -/
noncomputable def statevector_from_thetas (thetas : List ℝ) : ℕ → ℂ :=
  let n := thetas.length
  let init : ℕ → ℂ := fun i => if i = 0 then 1 else 0
  let rotated := thetas.enum.foldl
    (fun s p => apply_single_qubit_gate (ry p.2) p.1 s) init
  (List.range (n - 1)).foldl (fun s idx => apply_cnot idx (idx + 1) s) rotated

/-- The outcome probabilities `[abs(a) ** 2 for a in state]`. -/
noncomputable def probs_of (thetas : List ℝ) : List ℝ :=
  (List.range (2 ^ thetas.length)).map
    (fun i => Complex.abs (statevector_from_thetas thetas i) ^ 2)

/-- The scanning loop of `_sample_bitstring`: accumulate probabilities until
the draw `r` is covered (`r ≤ acc`), returning the current index; when the
list is exhausted return `total - 1` (the last bucket, `len(probs) - 1`). -/
noncomputable def sample_scan (r : ℝ) (total : ℕ) :
    List ℝ → ℝ → ℕ → ℕ
  | [], _, _ => total - 1
  | p :: rest, acc, i =>
      if r ≤ acc + p then i else sample_scan r total rest (acc + p) (i + 1)

/-- `_sample_bitstring`: one uniform draw, then inverse-CDF scan. -/
noncomputable def sample_bitstring (g : Rng) (probs : List ℝ) : ℕ × Rng :=
  let s := g.next
  (sample_scan s.1 probs.length probs 0 0, s.2)

/-- `_bit_to_z`: bit 0 ↦ +1, bit 1 ↦ −1. -/
def bit_to_z (bit : ℕ) : ℤ :=
  if bit = 0 then 1 else -1

/-- `_energy_for_bitstring`: sum of the per-qubit `z` values plus `0.5 × z_i × z_j`
for every pair `i < j` (the inner loop `for j in range(i+1, n)`). -/
noncomputable def energy_for_bitstring (bits : ℕ) (n : ℕ) : ℝ :=
  let z_vals := (List.range n).map (fun i => bit_to_z ((bits >>> i) &&& 1))
  ((z_vals.sum : ℤ) : ℝ) +
    (((List.range n).map (fun i =>
      ((((List.range n).drop (i + 1))).map
        (fun j => 0.5 * ((z_vals.getD i 0 : ℤ) : ℝ) * ((z_vals.getD j 0 : ℤ) : ℝ))).sum)).sum)

/-- The per-shot bit-flip loop of `measure_energy`: one Bernoulli draw per
qubit `q = 0..n-1` in order, toggling bit `q` when the draw is below
`p_flip`. -/
noncomputable def flip_loop (p_flip : ℝ) : ℕ → ℕ → ℕ → Rng → ℕ × Rng
  | 0, _, bits, g => (bits, g)
  | cnt + 1, q, bits, g =>
      let s := g.next
      flip_loop p_flip cnt (q + 1)
        (if s.1 < p_flip then bits ^^^ 1 <<< q else bits) s.2

/-- The shot loop of `measure_energy`: sample a bitstring, apply the
independent per-qubit flips, accumulate the Ising energy. -/
noncomputable def energy_shot_loop (probs : List ℝ) (p_flip : ℝ) (n : ℕ) :
    ℕ → ℝ → Rng → ℝ × Rng
  | 0, total, g => (total, g)
  | m + 1, total, g =>
      let sb := sample_bitstring g probs
      let fl := flip_loop p_flip n 0 sb.1 sb.2
      energy_shot_loop probs p_flip n m (total + energy_for_bitstring fl.1 n) fl.2

/-- `MultiQubitBackendSim.measure_energy`: validate, build the statevector and
probabilities, then average `shots` noisy energies. -/
noncomputable def measure_energy (thetas : List ℝ) (shots : ℤ) (p_flip : ℝ)
    (g : Rng) : Except String ℝ × Rng :=
  if shots ≤ 0 then (.error "shots must be a positive integer.", g)
  else if ¬ (0 ≤ p_flip ∧ p_flip ≤ 1) then
    (.error "p_flip must be between 0 and 1 inclusive.", g)
  else
    let probs := probs_of thetas
    let n := thetas.length
    let res := energy_shot_loop probs p_flip n shots.toNat 0 g
    (.ok (res.1 / (shots : ℝ)), res.2)

/-- `_wrap_thetas`: wrap each component into `[0, 2π)`. -/
noncomputable def wrap_thetas (thetas : List ℝ) : List ℝ :=
  thetas.map wrap_angle

/-- `tuple(rng.random() * 2.0 * math.pi for _ in range(n_qubits))`: the random
initial angles, drawn in order from the optimizer's local RNG. -/
noncomputable def draw_uniform_angles : ℕ → Rng → List ℝ × Rng
  | 0, g => ([], g)
  | m + 1, g =>
      let s := g.next
      let rest := draw_uniform_angles m s.2
      (s.1 * 2 * π :: rest.1, rest.2)

/-- `tuple(1 if rng.random() < 0.5 else -1 for _ in range(n_qubits))`: the
Rademacher perturbation vector. -/
noncomputable def draw_delta : ℕ → Rng → List ℝ × Rng
  | 0, g => ([], g)
  | m + 1, g =>
      let s := g.next
      let rest := draw_delta m s.2
      ((if s.1 < 0.5 then (1 : ℝ) else -1) :: rest.1, rest.2)

/-- The iteration loop of `spsa_optimize_multi` (`for k in range(1, steps+1)`):
the perturbation comes from the local RNG `lg`, the three evaluations from the
backend RNG `bg`, and one `MultiTrial` is appended per iteration.  Note there
is no argument validation anywhere in `spsa_optimize_multi`. -/
noncomputable def spsa_multi_loop (shots : ℤ) (p_flip a c : ℝ) :
    ℕ → ℕ → List ℝ → Rng → Rng → List MultiTrial →
    Except String Unit × Rng × Rng × List MultiTrial
  | 0, _, _, bg, lg, mem => (.ok (), bg, lg, mem)
  | fuel + 1, k, thetas, bg, lg, mem =>
      let ak := a / (k : ℝ) ^ (0.602 : ℝ)
      let ck := c / (k : ℝ) ^ (0.101 : ℝ)
      let d := draw_delta thetas.length lg
      let theta_plus := wrap_thetas (List.zipWith (fun t dd => t + ck * dd) thetas d.1)
      let theta_minus := wrap_thetas (List.zipWith (fun t dd => t - ck * dd) thetas d.1)
      match measure_energy theta_plus shots p_flip bg with
      | (.error e, bg2) => (.error e, bg2, d.2, mem)
      | (.ok e_plus, bg2) =>
        match measure_energy theta_minus shots p_flip bg2 with
        | (.error e, bg3) => (.error e, bg3, d.2, mem)
        | (.ok e_minus, bg3) =>
          let grad := d.1.map (fun dd => (e_plus - e_minus) / (2 * ck * dd))
          let thetas2 := wrap_thetas (List.zipWith (fun t gg => t - ak * gg) thetas grad)
          match measure_energy thetas2 shots p_flip bg3 with
          | (.error e, bg4) => (.error e, bg4, d.2, mem)
          | (.ok energy, bg4) =>
              spsa_multi_loop shots p_flip a c fuel (k + 1) thetas2 bg4 d.2
                (mem ++ [⟨(k : ℤ), thetas2, shots, p_flip, energy⟩])

/-- `spsa_optimize_multi`: build a fresh local RNG from `seed`, draw the
initial angles from it, run the loop, and return the whole `MultiMemory`.
Unlike `spsa_optimize`, it performs no validation of `steps`, `a` or `c`. -/
noncomputable def spsa_optimize_multi (n_qubits : ℕ) (steps : ℤ) (shots : ℤ)
    (p_flip a c : ℝ) (seed : ℕ) (bg : Rng) :
    Except String (List MultiTrial) × Rng :=
  let lg := mkRandom seed
  let tw := draw_uniform_angles n_qubits lg
  match spsa_multi_loop shots p_flip a c steps.toNat 1 tw.1 bg tw.2 [] with
  | (.error e, bg2, _, _) => (.error e, bg2)
  | (.ok _, bg2, _, mem) => (.ok mem, bg2)

/-- Total squared magnitude of an `n`-qubit amplitude vector (the quantity
the spec's norm invariant is about). -/
noncomputable def norm_sum (n : ℕ) (s : ℕ → ℂ) : ℝ :=
  ∑ i in Finset.range (2 ^ n), Complex.normSq (s i)

/-- The index permutation realised by `_apply_cnot`: toggle the target bit of
every index whose control bit is set. -/
def cnot_perm (control target i : ℕ) : ℕ :=
  if i.testBit control = true then
    (if i.testBit target = false then i ||| 1 <<< target
     else i ^^^ 1 <<< target)
  else i

/-- The claim's per-qubit spin value, stated independently of the code's
shift-and-mask arithmetic: `+1` when bit `i` of the outcome is 0, `-1` when
it is 1. -/
noncomputable def ising_z (bits i : ℕ) : ℝ :=
  if bits.testBit i then -1 else 1

/-- The value `measure_expectation_z` returns for valid arguments (the mean
of the signed outcomes). -/
noncomputable def mez_val (theta : ℝ) (shots : ℤ) (p_flip : ℝ) (g : Rng) : ℝ :=
  ((shot_loop (ideal_prob_zero theta) p_flip shots.toNat 0 g).1 : ℝ) /
    (shots : ℝ)

/-- The claim-side SPSA trajectory, written from the claimed per-iteration
protocol: gains `a_k = a/k^0.602`, `c_k = c/k^0.101`, one Rademacher draw,
two symmetric evaluations (each consuming `2·shots` draws), the gradient
estimate `(E⁺ − E⁻)/(2·c_k·δ)`, the update `wrap(θ − a_k·ĝ)`, and one third
logging evaluation at the freshly updated parameters recorded as the
iteration's trial. -/
noncomputable def spsa_traj (shots : ℤ) (p_flip a c : ℝ) :
    ℕ → ℕ → ℝ → Rng → List Trial
  | 0, _, _, _ => []
  | fuel + 1, k, theta, g =>
      let ak := a / (k : ℝ) ^ (0.602 : ℝ)
      let ck := c / (k : ℝ) ^ (0.101 : ℝ)
      let s := g.next
      let delta : ℝ := if s.1 < 0.5 then 1 else -1
      let e_plus := mez_val (wrap_angle (theta + ck * delta)) shots p_flip s.2
      let e_minus := mez_val (wrap_angle (theta - ck * delta)) shots p_flip
        (s.2.advance (2 * shots.toNat))
      let g_hat := (e_plus - e_minus) / (2 * ck * delta)
      let theta2 := wrap_angle (theta - ak * g_hat)
      let energy := mez_val (wrap_angle theta2) shots p_flip
        (s.2.advance (4 * shots.toNat))
      ⟨(k : ℤ), wrap_angle theta2, shots, p_flip, energy⟩ ::
        spsa_traj shots p_flip a c fuel (k + 1) theta2
          (s.2.advance (6 * shots.toNat))

/-- The value `measure_energy` returns for valid arguments. -/
noncomputable def me_val (thetas : List ℝ) (shots : ℤ) (p_flip : ℝ)
    (g : Rng) : ℝ :=
  (energy_shot_loop (probs_of thetas) p_flip thetas.length shots.toNat 0 g).1 /
    (shots : ℝ)

/-- The generator state `measure_energy` leaves behind for valid arguments. -/
noncomputable def me_rng (thetas : List ℝ) (shots : ℤ) (p_flip : ℝ)
    (g : Rng) : Rng :=
  (energy_shot_loop (probs_of thetas) p_flip thetas.length shots.toNat 0 g).2

/-- The denotation of the `spsa_optimize_multi` iteration loop on valid
arguments: final backend RNG, final local RNG, and the list of trials
appended, one per iteration. -/
noncomputable def multi_run (shots : ℤ) (p_flip a c : ℝ) :
    ℕ → ℕ → List ℝ → Rng → Rng → Rng × Rng × List MultiTrial
  | 0, _, _, bg, lg => (bg, lg, [])
  | fuel + 1, k, thetas, bg, lg =>
      let ak := a / (k : ℝ) ^ (0.602 : ℝ)
      let ck := c / (k : ℝ) ^ (0.101 : ℝ)
      let d := draw_delta thetas.length lg
      let theta_plus := wrap_thetas (List.zipWith (fun t dd => t + ck * dd) thetas d.1)
      let theta_minus := wrap_thetas (List.zipWith (fun t dd => t - ck * dd) thetas d.1)
      let e_plus := me_val theta_plus shots p_flip bg
      let bg2 := me_rng theta_plus shots p_flip bg
      let e_minus := me_val theta_minus shots p_flip bg2
      let bg3 := me_rng theta_minus shots p_flip bg2
      let grad := d.1.map (fun dd => (e_plus - e_minus) / (2 * ck * dd))
      let thetas2 := wrap_thetas (List.zipWith (fun t gg => t - ak * gg) thetas grad)
      let energy := me_val thetas2 shots p_flip bg3
      let bg4 := me_rng thetas2 shots p_flip bg3
      let rest := multi_run shots p_flip a c fuel (k + 1) thetas2 bg4 d.2
      (rest.1, rest.2.1, ⟨(k : ℤ), thetas2, shots, p_flip, energy⟩ :: rest.2.2)

/-! ## Theorems -/

/-- Claim C1 (amended): `spsa_optimize` rejects `steps ≤ 0`, `a ≤ 0` and
`c ≤ 0` with a `ValueError` before any RNG draw or ledger append (the caller's
state is returned untouched); `spsa_optimize_multi`, however, performs no such
validation: a call with `steps ≤ 0` returns an empty ledger without error,
leaving the backend RNG untouched. -/
theorem claim1_spsa_validation (shots : ℤ) (p_flip : ℝ) (steps : ℤ) (a c : ℝ)
    (lab : AutonomousQuantumLab) (n_qubits seed : ℕ) (bg : Rng)
    (h : steps ≤ 0 ∨ a ≤ 0 ∨ c ≤ 0) :
    (∃ msg, spsa_optimize shots p_flip steps a c lab = (.error msg, lab)) ∧
      (steps ≤ 0 →
        spsa_optimize_multi n_qubits steps shots p_flip a c seed bg =
          (.ok [], bg)) := by
  constructor
  · by_cases hs : steps ≤ 0
    · exact ⟨"steps must be positive.", by rw [spsa_optimize, if_pos hs]⟩
    · have hac : a ≤ 0 ∨ c ≤ 0 := h.resolve_left hs
      exact ⟨"a and c must be positive.",
        by rw [spsa_optimize, if_neg hs, if_pos hac]⟩
  · intro hs
    rw [spsa_optimize_multi, Int.toNat_of_nonpos hs]
    rfl

/-- Witness for C1 at a concrete invalid input (`steps = 0`). -/
theorem claim1_spsa_validation_witness :
    (∃ msg, spsa_optimize 100 0 0 (6/10) (2/10) ⟨⟨fun _ => 0, 0⟩, []⟩ =
      (.error msg, ⟨⟨fun _ => 0, 0⟩, []⟩)) ∧
      ((0 : ℤ) ≤ 0 →
        spsa_optimize_multi 2 0 100 0 (6/10) (2/10) 7 ⟨fun _ => 0, 0⟩ =
          (.ok [], ⟨fun _ => 0, 0⟩)) :=
  claim1_spsa_validation 100 0 0 (6/10) (2/10) ⟨⟨fun _ => 0, 0⟩, []⟩ 2 7
    ⟨fun _ => 0, 0⟩ (Or.inl le_rfl)

/-- Counterexample to C1 as stated: `spsa_optimize_multi` called with
`steps = 0` (and the demo's other parameters) does not fail with a
`ValueError`; it returns an empty ledger successfully. -/
theorem claim1_multi_no_validation_cex :
    (spsa_optimize_multi 2 0 400 (5/100) (6/10) (2/10) 7 (mkRandom 7)).1 =
      .ok [] := by
  rw [spsa_optimize_multi]
  rfl

/-- Claim C7: `measure_expectation_z` and `measure_energy` reject
`shots ≤ 0` and `p_flip` outside `[0,1]` with a `ValueError` raised before any
RNG draw (the generator is returned at its original position) and, through
`run_experiment`, before any trial is appended (the lab state is returned
untouched); for `shots > 0` and `p_flip ∈ [0,1]` no error is raised. -/
theorem claim7_measure_validation (theta : ℝ) (thetas : List ℝ) (shots : ℤ)
    (p_flip : ℝ) (g : Rng) (step : ℤ) (lab : AutonomousQuantumLab) :
    ((shots ≤ 0 ∨ p_flip < 0 ∨ 1 < p_flip) →
      ∃ msg, measure_expectation_z theta shots p_flip g = (.error msg, g) ∧
        measure_energy thetas shots p_flip g = (.error msg, g) ∧
        run_experiment step theta shots p_flip lab = (.error msg, lab)) ∧
      (0 < shots → 0 ≤ p_flip → p_flip ≤ 1 →
        (∃ v, (measure_expectation_z theta shots p_flip g).1 = .ok v) ∧
          (∃ v, (measure_energy thetas shots p_flip g).1 = .ok v)) := by
  constructor
  · intro h
    by_cases hs : shots ≤ 0
    · refine ⟨"shots must be a positive integer.", ?_, ?_, ?_⟩
      · rw [measure_expectation_z, if_pos hs]
      · rw [measure_energy, if_pos hs]
      · rw [run_experiment, measure_expectation_z, if_pos hs]
    · have hp : ¬ (0 ≤ p_flip ∧ p_flip ≤ 1) := by
        rcases h.resolve_left hs with h1 | h2
        · exact fun hc => absurd hc.1 (not_le.mpr h1)
        · exact fun hc => absurd hc.2 (not_le.mpr h2)
      refine ⟨"p_flip must be between 0 and 1 inclusive.", ?_, ?_, ?_⟩
      · rw [measure_expectation_z, if_neg hs, if_pos hp]
      · rw [measure_energy, if_neg hs, if_pos hp]
      · rw [run_experiment, measure_expectation_z, if_neg hs, if_pos hp]
  · intro hs h0 h1
    have hs2 : ¬ shots ≤ 0 := not_le.mpr hs
    have hp : ¬ ¬ (0 ≤ p_flip ∧ p_flip ≤ 1) := not_not_intro ⟨h0, h1⟩
    constructor
    · exact ⟨_, by rw [measure_expectation_z, if_neg hs2, if_neg hp]⟩
    · exact ⟨_, by rw [measure_energy, if_neg hs2, if_neg hp]⟩

/-- Witness for C7 at concrete inputs (`shots = 0` rejected, `shots = 1`,
`p_flip = 0` accepted). -/
theorem claim7_measure_validation_witness :
    (((0 : ℤ) ≤ 0 ∨ (0 : ℝ) < 0 ∨ (1 : ℝ) < 0) →
      ∃ msg, measure_expectation_z 0 0 0 ⟨fun _ => 0, 0⟩ =
          (.error msg, ⟨fun _ => 0, 0⟩) ∧
        measure_energy [] 0 0 ⟨fun _ => 0, 0⟩ = (.error msg, ⟨fun _ => 0, 0⟩) ∧
        run_experiment 1 0 0 0 ⟨⟨fun _ => 0, 0⟩, []⟩ =
          (.error msg, ⟨⟨fun _ => 0, 0⟩, []⟩)) ∧
      ((0 : ℤ) < 0 → (0 : ℝ) ≤ 0 → (0 : ℝ) ≤ 1 →
        (∃ v, (measure_expectation_z 0 0 0 ⟨fun _ => 0, 0⟩).1 = .ok v) ∧
          (∃ v, (measure_energy [] 0 0 ⟨fun _ => 0, 0⟩).1 = .ok v)) :=
  claim7_measure_validation 0 [] 0 0 ⟨fun _ => 0, 0⟩ 1 ⟨⟨fun _ => 0, 0⟩, []⟩

/-- The fold of `firstMinBy` over a `some` accumulator is `firstMinAux`. -/
theorem foldl_min_eq_aux {α : Type} (f : α → ℝ) :
    ∀ (l : List α) (b : α),
      l.foldl
        (fun acc t =>
          match acc with
          | none => some t
          | some b => if f t < f b then some t else some b)
        (some b) = some (firstMinAux f b l) := by
  intro l
  induction l with
  | nil => intro b; rfl
  | cons x t ih =>
      intro b
      simp only [List.foldl_cons, firstMinAux]
      by_cases hx : f x < f b
      · rw [if_pos hx, if_pos hx, ih]
      · rw [if_neg hx, if_neg hx, ih]

/-- `firstMinBy` on a non-empty list starts the scan at the head. -/
theorem firstMinBy_cons {α : Type} (f : α → ℝ) (a : α) (l : List α) :
    firstMinBy f (a :: l) = some (firstMinAux f a l) := by
  simp only [firstMinBy, List.foldl_cons]
  exact foldl_min_eq_aux f l a

/-- `firstMinAux f b l` is the first minimum of `b :: l`: the list splits as
`l1 ++ result :: l2` with every element of `l1` strictly larger and every
element overall at least as large. -/
theorem firstMinAux_spec {α : Type} (f : α → ℝ) :
    ∀ (l : List α) (b : α),
      ∃ l1 l2, b :: l = l1 ++ firstMinAux f b l :: l2 ∧
        (∀ y ∈ l1, f (firstMinAux f b l) < f y) ∧
        (∀ y ∈ b :: l, f (firstMinAux f b l) ≤ f y) := by
  intro l
  induction l with
  | nil =>
      intro b
      exact ⟨[], [], rfl, by simp, by simp [firstMinAux]⟩
  | cons x t ih =>
      intro b
      by_cases hx : f x < f b
      · obtain ⟨l1, l2, heq, hlt, hle⟩ := ih x
        simp only [firstMinAux, if_pos hx]
        refine ⟨b :: l1, l2, ?_, ?_, ?_⟩
        · simpa using congrArg (List.cons b) heq
        · intro y hy
          rcases List.mem_cons.mp hy with rfl | hy
          · exact lt_of_le_of_lt (hle x (List.mem_cons_self x t)) hx
          · exact hlt y hy
        · intro y hy
          rcases List.mem_cons.mp hy with rfl | hy
          · exact le_of_lt (lt_of_le_of_lt (hle x (List.mem_cons_self x t)) hx)
          · exact hle y hy
      · obtain ⟨l1, l2, heq, hlt, hle⟩ := ih b
        simp only [firstMinAux, if_neg hx]
        cases l1 with
        | nil =>
            simp only [List.nil_append] at heq
            refine ⟨[], x :: t, ?_, by simp, ?_⟩
            · rw [List.nil_append]
              rw [← (List.cons.injEq ..).mp heq |>.1]
            · intro y hy
              have hb : firstMinAux f b t = b := ((List.cons.injEq ..).mp heq).1.symm
              rcases List.mem_cons.mp hy with rfl | hy
              · rw [hb]
              · rcases List.mem_cons.mp hy with rfl | hy
                · rw [hb]; exact not_lt.mp hx
                · exact hle y (List.mem_cons_of_mem b hy)
        | cons z l1' =>
            have hz : z = b := (((List.cons.injEq ..).mp (by simpa using heq)).1).symm
            have ht : t = l1' ++ firstMinAux f b t :: l2 :=
              ((List.cons.injEq ..).mp (by simpa using heq)).2
            have hrb : f (firstMinAux f b t) < f b := by
              have := hlt z (List.mem_cons_self z l1')
              rwa [hz] at this
            refine ⟨b :: x :: l1', l2, ?_, ?_, ?_⟩
            · rw [List.cons_append, List.cons_append]
              exact congrArg (List.cons b) (congrArg (List.cons x) ht)
            · intro y hy
              rcases List.mem_cons.mp hy with rfl | hy
              · exact hrb
              · rcases List.mem_cons.mp hy with rfl | hy
                · exact lt_of_lt_of_le hrb (not_lt.mp hx)
                · exact hlt y (List.mem_cons_of_mem z hy)
            · intro y hy
              rcases List.mem_cons.mp hy with rfl | hy
              · exact le_of_lt hrb
              · rcases List.mem_cons.mp hy with rfl | hy
                · exact le_of_lt (lt_of_lt_of_le hrb (not_lt.mp hx))
                · exact hle y (List.mem_cons_of_mem b hy)

/-- `firstMinBy` of a non-empty list: some first minimum. -/
theorem firstMinBy_spec {α : Type} (f : α → ℝ) (m : List α) (hm : m ≠ []) :
    ∃ t l1 l2, firstMinBy f m = some t ∧ m = l1 ++ t :: l2 ∧
      (∀ u ∈ m, f t ≤ f u) ∧ (∀ y ∈ l1, f t < f y) := by
  obtain ⟨a, l, rfl⟩ := List.exists_cons_of_ne_nil hm
  obtain ⟨l1, l2, heq, hlt, hle⟩ := firstMinAux_spec f l a
  exact ⟨firstMinAux f a l, l1, l2, firstMinBy_cons f a l, heq, hle, hlt⟩

/-- Claim C5: on the empty ledger `best()` and `last()` return the empty
result; on a non-empty ledger `best()` returns the trial with minimum
`measured_energy`, resolving ties to the first occurrence in insertion order
(every strictly earlier trial has strictly greater energy), and `last()`
returns the most recently appended trial.  Both the single-qubit and the
multi-qubit ledger are covered. -/
theorem claim5_ledger_best_last :
    (DiachronicMemory.best [] = none ∧ DiachronicMemory.last [] = none ∧
      MultiMemory.best [] = none) ∧
      (∀ m : List Trial, m ≠ [] →
        ∃ t l1 l2, DiachronicMemory.best m = some t ∧ m = l1 ++ t :: l2 ∧
          (∀ u ∈ m, t.measured_energy ≤ u.measured_energy) ∧
          (∀ y ∈ l1, t.measured_energy < y.measured_energy)) ∧
      (∀ m : List MultiTrial, m ≠ [] →
        ∃ t l1 l2, MultiMemory.best m = some t ∧ m = l1 ++ t :: l2 ∧
          (∀ u ∈ m, t.measured_energy ≤ u.measured_energy) ∧
          (∀ y ∈ l1, t.measured_energy < y.measured_energy)) ∧
      (∀ (m : List Trial) (t : Trial),
        DiachronicMemory.last (m ++ [t]) = some t) := by
  refine ⟨⟨rfl, rfl, rfl⟩, ?_, ?_, ?_⟩
  · intro m hm
    exact firstMinBy_spec (fun t => t.measured_energy) m hm
  · intro m hm
    exact firstMinBy_spec (fun t => t.measured_energy) m hm
  · intro m t
    exact List.getLast?_concat m

/-- The inverse-CDF scan stays below `total` whenever the indices left to
return fit under `total`. -/
theorem sample_scan_lt (r : ℝ) (total : ℕ) :
    ∀ (probs : List ℝ) (acc : ℝ) (i : ℕ), 1 ≤ total →
      i + probs.length ≤ total → sample_scan r total probs acc i < total := by
  intro probs
  induction probs with
  | nil =>
      intro acc i h1 _
      simp only [sample_scan]
      omega
  | cons p rest ih =>
      intro acc i h1 h2
      simp only [sample_scan, List.length_cons] at h2 ⊢
      by_cases hr : r ≤ acc + p
      · rw [if_pos hr]; omega
      · rw [if_neg hr]
        exact ih (acc + p) (i + 1) h1 (by omega)

/-- When no partial sum ever covers the draw, the scan falls through to the
last bucket `total - 1`. -/
theorem sample_scan_fallback (r : ℝ) (total : ℕ) :
    ∀ (probs : List ℝ) (acc : ℝ) (i : ℕ),
      (∀ k < probs.length, acc + (probs.take (k + 1)).sum < r) →
      sample_scan r total probs acc i = total - 1 := by
  intro probs
  induction probs with
  | nil => intro acc i _; rfl
  | cons p rest ih =>
      intro acc i h
      have h0 : acc + p < r := by
        have := h 0 (by simp)
        simpa using this
      simp only [sample_scan]
      rw [if_neg (not_le.mpr h0)]
      refine ih (acc + p) (i + 1) ?_
      intro k hk
      have := h (k + 1) (by simp; omega)
      rw [List.take_succ_cons, List.sum_cons, ← add_assoc] at this
      exact this

/-- Claim C9: for a non-empty probability list and a uniform draw in `[0,1)`,
`_sample_bitstring` returns an index strictly below the list length; when no
cumulative sum ever reaches the draw, the final fallback returns the last
bucket `length - 1`, so an out-of-range result is impossible. -/
theorem claim9_sampler_in_range (g : Rng) (probs : List ℝ) (hne : probs ≠ [])
    (h0 : 0 ≤ g.stream g.pos) (h1 : g.stream g.pos < 1) :
    (sample_bitstring g probs).1 < probs.length ∧
      ((∀ k < probs.length, (probs.take (k + 1)).sum < g.stream g.pos) →
        (sample_bitstring g probs).1 = probs.length - 1) := by
  have hlen : 1 ≤ probs.length := List.length_pos.mpr hne
  constructor
  · exact sample_scan_lt _ _ probs 0 0 hlen (by omega)
  · intro hnever
    refine sample_scan_fallback _ _ probs 0 0 ?_
    intro k hk
    simpa using hnever k hk

/-- Witness for C9 at the one-bucket list `[1]` and the constant-zero draw. -/
theorem claim9_sampler_in_range_witness :
    (sample_bitstring ⟨fun _ => 0, 0⟩ [1]).1 < ([(1 : ℝ)]).length ∧
      ((∀ k < ([(1 : ℝ)]).length,
          (([(1 : ℝ)]).take (k + 1)).sum < (fun _ => (0 : ℝ)) 0) →
        (sample_bitstring ⟨fun _ => 0, 0⟩ [1]).1 = ([(1 : ℝ)]).length - 1) :=
  claim9_sampler_in_range ⟨fun _ => 0, 0⟩ [1] (List.cons_ne_nil 1 [])
    le_rfl zero_lt_one

/-- Claim C2: two runs built from the same seed with the same parameters and
call sequence produce exactly equal parameter trajectories, exactly equal
per-trial energies, and the same best-trial result.  In this embedding all
state is explicit, so a run is a pure function of (seed, parameters): exact
equality (not merely within tolerance) follows. -/
theorem claim2_determinism (s1 s2 : ℕ) (shots : ℤ) (p_flip : ℝ) (steps : ℤ)
    (a c : ℝ) (h : s1 = s2) :
    ((spsa_optimize shots p_flip steps a c ⟨mkRandom s1, []⟩).2.trials.map
        (fun t => t.theta) =
      (spsa_optimize shots p_flip steps a c ⟨mkRandom s2, []⟩).2.trials.map
        (fun t => t.theta)) ∧
      ((spsa_optimize shots p_flip steps a c ⟨mkRandom s1, []⟩).2.trials.map
          (fun t => t.measured_energy) =
        (spsa_optimize shots p_flip steps a c ⟨mkRandom s2, []⟩).2.trials.map
          (fun t => t.measured_energy)) ∧
      (spsa_optimize shots p_flip steps a c ⟨mkRandom s1, []⟩).1 =
        (spsa_optimize shots p_flip steps a c ⟨mkRandom s2, []⟩).1 := by
  subst h
  exact ⟨rfl, rfl, rfl⟩

/-- Witness for C2 at seed 7 and the demo parameters. -/
theorem claim2_determinism_witness :
    ((spsa_optimize 300 (2/100) 20 (6/10) (2/10) ⟨mkRandom 999, []⟩).2.trials.map
        (fun t => t.theta) =
      (spsa_optimize 300 (2/100) 20 (6/10) (2/10) ⟨mkRandom 999, []⟩).2.trials.map
        (fun t => t.theta)) ∧
      ((spsa_optimize 300 (2/100) 20 (6/10) (2/10) ⟨mkRandom 999, []⟩).2.trials.map
          (fun t => t.measured_energy) =
        (spsa_optimize 300 (2/100) 20 (6/10) (2/10) ⟨mkRandom 999, []⟩).2.trials.map
          (fun t => t.measured_energy)) ∧
      (spsa_optimize 300 (2/100) 20 (6/10) (2/10) ⟨mkRandom 999, []⟩).1 =
        (spsa_optimize 300 (2/100) 20 (6/10) (2/10) ⟨mkRandom 999, []⟩).1 :=
  claim2_determinism 999 999 300 (2/100) 20 (6/10) (2/10) rfl

/-- The sampling loop consumes exactly two draws per shot, regardless of the
noise level and the outcomes. -/
theorem shot_loop_rng (p0 pf : ℝ) :
    ∀ (n : ℕ) (t : ℤ) (g : Rng), (shot_loop p0 pf n t g).2 = g.advance (2 * n) := by
  intro n
  induction n with
  | zero =>
      intro t g
      cases g
      simp [shot_loop, Rng.advance]
  | succ m ih =>
      intro t g
      simp only [shot_loop, Rng.next]
      rw [ih]
      simp only [Rng.advance, Rng.mk.injEq]
      exact ⟨trivial, by omega⟩

/-- With draws in `[0,1)`, `p_flip = 1` always negates the per-shot outcome
and `p_flip = 0` never does: the totals are exact negations and the generator
ends at the same position. -/
theorem shot_loop_flip_all (p0 : ℝ) :
    ∀ (n : ℕ) (t : ℤ) (g : Rng), (∀ m, 0 ≤ g.stream m ∧ g.stream m < 1) →
      shot_loop p0 1 n t g =
        (-(shot_loop p0 0 n (-t) g).1, (shot_loop p0 0 n (-t) g).2) := by
  intro n
  induction n with
  | zero => intro t g _; simp [shot_loop]
  | succ m ih =>
      intro t g hb
      simp only [shot_loop, Rng.next]
      rw [if_pos (hb (g.pos + 1)).2, if_neg (not_lt.mpr (hb (g.pos + 1)).1)]
      have := ih (t + -(if g.stream g.pos < p0 then (1 : ℤ) else -1))
        ⟨g.stream, g.pos + 1 + 1⟩ (fun m => hb m)
      rw [neg_add, neg_neg] at this
      rw [this]

/-- Claim C10: with a fresh generator whose draws lie in `[0,1)`,
`measure_expectation_z` at `p_flip = 1` returns exactly the negation of the
value at `p_flip = 0`, both calls consuming exactly two draws per shot. -/
theorem claim10_full_flip_negates (theta : ℝ) (shots : ℤ) (g : Rng)
    (hs : 0 < shots) (hb : ∀ m, 0 ≤ g.stream m ∧ g.stream m < 1) :
    ∃ v, measure_expectation_z theta shots 0 g =
        (.ok v, g.advance (2 * shots.toNat)) ∧
      measure_expectation_z theta shots 1 g =
        (.ok (-v), g.advance (2 * shots.toNat)) := by
  have hs2 : ¬ shots ≤ 0 := not_le.mpr hs
  have hp0 : ¬ ¬ ((0 : ℝ) ≤ 0 ∧ (0 : ℝ) ≤ 1) := by norm_num
  have hp1 : ¬ ¬ ((0 : ℝ) ≤ 1 ∧ (1 : ℝ) ≤ 1) := by norm_num
  refine ⟨((shot_loop (ideal_prob_zero theta) 0 shots.toNat 0 g).1 : ℝ) /
    (shots : ℝ), ?_, ?_⟩
  · rw [measure_expectation_z, if_neg hs2, if_neg hp0]
    simp only [shot_loop_rng]
  · rw [measure_expectation_z, if_neg hs2, if_neg hp1]
    have hfl := shot_loop_flip_all (ideal_prob_zero theta) shots.toNat 0 g hb
    rw [neg_zero] at hfl
    simp only [hfl, shot_loop_rng, Int.cast_neg, neg_div]

/-- Witness for C10: one shot, angle 0, the constant-half stream. -/
theorem claim10_full_flip_negates_witness :
    ∃ v, measure_expectation_z 0 1 0 ⟨fun _ => 1/2, 0⟩ =
        (.ok v, Rng.advance ⟨fun _ => 1/2, 0⟩ (2 * (1 : ℤ).toNat)) ∧
      measure_expectation_z 0 1 1 ⟨fun _ => 1/2, 0⟩ =
        (.ok (-v), Rng.advance ⟨fun _ => 1/2, 0⟩ (2 * (1 : ℤ).toNat)) :=
  claim10_full_flip_negates 0 1 ⟨fun _ => 1/2, 0⟩ one_pos
    (fun _ => ⟨by norm_num, by norm_num⟩)

/-- Sum of a function mapped over `List.range` is the `Finset.range` sum. -/
theorem list_sum_map_range (f : ℕ → ℝ) (n : ℕ) :
    ((List.range n).map f).sum = ∑ i in Finset.range n, f i := by
  induction n with
  | zero => simp
  | succ m ih =>
      rw [List.range_succ, List.map_append, List.sum_append, ih,
        Finset.sum_range_succ]
      simp

/-- Sum over the tail `range(m, n)` (rendered as `(List.range n).drop m`) is
the `Finset.Ico` sum. -/
theorem list_sum_map_drop_range (h : ℕ → ℝ) :
    ∀ (n m : ℕ), (((List.range n).drop m).map h).sum = ∑ j in Finset.Ico m n, h j := by
  intro n
  induction n with
  | zero => intro m; simp
  | succ k ih =>
      intro m
      by_cases hm : m ≤ k
      · rw [List.range_succ, List.drop_append_of_le_length (by simpa using hm),
          List.map_append, List.sum_append, ih m,
          Finset.sum_Ico_succ_top hm]
        simp
      · have hk : (List.range (k + 1)).length ≤ m := by simpa using hm
        rw [List.drop_eq_nil_of_le hk]
        rw [Finset.Ico_eq_empty (by omega)]
        simp

/-- Indexing into the `z_vals` list resolves to the generating function. -/
theorem zvals_getD (fz : ℕ → ℤ) (n i : ℕ) (h : i < n) :
    ((List.range n).map fz).getD i 0 = fz i := by
  simp [List.getD_eq_getElem?_getD, List.getElem?_map, List.getElem?_range h]

/-- The code's `±1` value agrees with the claim's testBit-phrased spin. -/
theorem bit_to_z_cast (bits i : ℕ) :
    ((bit_to_z ((bits >>> i) &&& 1) : ℤ) : ℝ) = ising_z bits i := by
  rw [bit_to_z, ising_z, Nat.and_one_is_mod, Nat.testBit_to_div_mod,
    Nat.shiftRight_eq_div_pow]
  have h2 : bits / 2 ^ i % 2 = 0 ∨ bits / 2 ^ i % 2 = 1 := by omega
  rcases h2 with h | h <;> simp [h]

/-- `_energy_for_bitstring` equals the claim's closed formula: the sum of the
spins plus half the sum of all pairwise spin products. -/
theorem energy_for_bitstring_eq (bits n : ℕ) :
    energy_for_bitstring bits n =
      (∑ i in Finset.range n, ising_z bits i) +
        (1/2) * ∑ i in Finset.range n, ∑ j in Finset.Ico (i + 1) n,
          ising_z bits i * ising_z bits j := by
  simp only [energy_for_bitstring, Int.cast_list_sum, List.map_map,
    list_sum_map_range, list_sum_map_drop_range]
  congr 1
  · exact Finset.sum_congr rfl fun i _ => bit_to_z_cast bits i
  · rw [Finset.mul_sum]
    refine Finset.sum_congr rfl fun i hi => ?_
    rw [Finset.mul_sum]
    refine Finset.sum_congr rfl fun j hj => ?_
    rw [zvals_getD _ _ _ (Finset.mem_range.mp hi),
      zvals_getD _ _ _ (Finset.mem_Ico.mp hj).2,
      bit_to_z_cast bits i, bit_to_z_cast bits j]
    ring_nf

/-- Claim C6: the energy functional is the Ising form (single-qubit terms
plus half of every unordered pairwise product of spins); at `N = 1` it is the
bare `±1` spin with no pairwise term, which is exactly the signed value the
single-qubit backend adds to its total on each shot. -/
theorem claim6_ising_energy (bits n : ℕ) (p0 pf : ℝ) (t : ℤ) (g : Rng) :
    (energy_for_bitstring bits n =
        (∑ i in Finset.range n, ising_z bits i) +
          (1/2) * ∑ i in Finset.range n, ∑ j in Finset.Ico (i + 1) n,
            ising_z bits i * ising_z bits j) ∧
      energy_for_bitstring bits 1 = ising_z bits 0 ∧
      (ising_z bits 0 = 1 ∨ ising_z bits 0 = -1) ∧
      ((shot_loop p0 pf 1 t g).1 = t + 1 ∨ (shot_loop p0 pf 1 t g).1 = t - 1) := by
  refine ⟨energy_for_bitstring_eq bits n, ?_, ?_, ?_⟩
  · rw [energy_for_bitstring_eq bits 1]
    simp
  · rw [ising_z]
    by_cases h : bits.testBit 0 <;> simp [h]
  · simp only [shot_loop, Rng.next]
    by_cases h1 : g.stream g.pos < p0 <;>
      by_cases h2 : g.stream (g.pos + 1) < pf <;> simp [h1, h2] <;> omega

/-- The one-qubit statevector: amplitudes `cos(θ/2)` and `sin(θ/2)`. -/
theorem statevector_single (theta : ℝ) :
    statevector_from_thetas [theta] 0 = (Real.cos (theta / 2) : ℂ) ∧
      statevector_from_thetas [theta] 1 = (Real.sin (theta / 2) : ℂ) := by
  constructor <;>
    simp [statevector_from_thetas, apply_single_qubit_gate, ry]

/-- Claim C4: the single-qubit closed-form shortcut `cos²(θ/2)` equals the
probability of outcome 0 computed from the general statevector of `(θ,)`, and
the two outcome probabilities of the general path are exactly
`[cos²(θ/2), 1 − cos²(θ/2)]`. -/
theorem claim4_single_qubit_shortcut (theta : ℝ) :
    Complex.abs (statevector_from_thetas [theta] 0) ^ 2 =
        ideal_prob_zero theta ∧
      probs_of [theta] = [ideal_prob_zero theta, 1 - ideal_prob_zero theta] := by
  obtain ⟨h0, h1⟩ := statevector_single theta
  have hc : Complex.abs (statevector_from_thetas [theta] 0) ^ 2 =
      ideal_prob_zero theta := by
    rw [h0, Complex.abs_ofReal, sq_abs, ideal_prob_zero]
  refine ⟨hc, ?_⟩
  have hrange : List.range (2 ^ ([theta] : List ℝ).length) = [0, 1] := rfl
  rw [probs_of, hrange]
  simp only [List.map_cons, List.map_nil]
  rw [hc, h1, Complex.abs_ofReal, sq_abs, Real.sin_sq, ideal_prob_zero]

/-- Setting bit `q` makes it read as set. -/
theorem testBit_or_pow_self (i q : ℕ) : (i ||| 2 ^ q).testBit q = true := by
  simp [Nat.testBit_or, Nat.testBit_two_pow_self]

/-- Toggling bit `q` flips its reading. -/
theorem testBit_xor_pow_self (j q : ℕ) :
    (j ^^^ 2 ^ q).testBit q = !(j.testBit q) := by
  simp [Nat.testBit_xor, Nat.testBit_two_pow_self]

/-- Setting bit `q` leaves other bits unchanged. -/
theorem testBit_or_pow_other (i q k : ℕ) (h : k ≠ q) :
    (i ||| 2 ^ q).testBit k = i.testBit k := by
  simp [Nat.testBit_or, Nat.testBit_two_pow_of_ne (Ne.symm h)]

/-- Toggling bit `q` leaves other bits unchanged. -/
theorem testBit_xor_pow_other (i q k : ℕ) (h : k ≠ q) :
    (i ^^^ 2 ^ q).testBit k = i.testBit k := by
  simp [Nat.testBit_xor, Nat.testBit_two_pow_of_ne (Ne.symm h)]

/-- Setting then clearing bit `q` on an index with that bit clear is the
identity. -/
theorem or_pow_xor (i q : ℕ) (h : i.testBit q = false) :
    (i ||| 2 ^ q) ^^^ 2 ^ q = i := by
  apply Nat.eq_of_testBit_eq
  intro k
  by_cases hk : k = q
  · subst hk
    simp [Nat.testBit_xor, Nat.testBit_or, Nat.testBit_two_pow_self, h]
  · simp [Nat.testBit_xor, Nat.testBit_or,
      Nat.testBit_two_pow_of_ne (Ne.symm hk)]

/-- Clearing then setting bit `q` on an index with that bit set is the
identity. -/
theorem xor_pow_or (j q : ℕ) (h : j.testBit q = true) :
    (j ^^^ 2 ^ q) ||| 2 ^ q = j := by
  apply Nat.eq_of_testBit_eq
  intro k
  by_cases hk : k = q
  · subst hk
    simp [Nat.testBit_or, Nat.testBit_xor, Nat.testBit_two_pow_self, h]
  · simp [Nat.testBit_or, Nat.testBit_xor,
      Nat.testBit_two_pow_of_ne (Ne.symm hk)]

/-- Setting a low bit keeps the index below `2^n`. -/
theorem or_pow_lt (i q n : ℕ) (hi : i < 2 ^ n) (hq : q < n) :
    i ||| 2 ^ q < 2 ^ n :=
  Nat.or_lt_two_pow hi (Nat.pow_lt_pow_right one_lt_two hq)

/-- Toggling a low bit keeps the index below `2^n`. -/
theorem xor_pow_lt (i q n : ℕ) (hi : i < 2 ^ n) (hq : q < n) :
    i ^^^ 2 ^ q < 2 ^ n :=
  Nat.xor_lt_two_pow hi (Nat.pow_lt_pow_right one_lt_two hq)

/-- A sum over all `2^n` indices splits into a sum over the indices with bit
`q` clear, pairing each with its partner that has bit `q` set. -/
theorem sum_pair_split (n q : ℕ) (hq : q < n) (f : ℕ → ℝ) :
    ∑ i in Finset.range (2 ^ n), f i =
      ∑ i in (Finset.range (2 ^ n)).filter (fun i => i.testBit q = false),
        (f i + f (i ||| 2 ^ q)) := by
  rw [Finset.sum_add_distrib]
  rw [← Finset.sum_filter_add_sum_filter_not (Finset.range (2 ^ n))
    (fun i => i.testBit q = false) f]
  congr 1
  refine Finset.sum_nbij' (fun j => j ^^^ 2 ^ q) (fun i => i ||| 2 ^ q)
    ?_ ?_ ?_ ?_ ?_
  · intro a ha
    obtain ⟨har, hab⟩ := Finset.mem_filter.mp ha
    have hat : a.testBit q = true := by
      cases h : a.testBit q
      · exact absurd h hab
      · rfl
    refine Finset.mem_filter.mpr ⟨?_, ?_⟩
    · exact Finset.mem_range.mpr (xor_pow_lt a q n (Finset.mem_range.mp har) hq)
    · rw [testBit_xor_pow_self, hat]
      rfl
  · intro b hb
    obtain ⟨hbr, hbb⟩ := Finset.mem_filter.mp hb
    refine Finset.mem_filter.mpr ⟨?_, ?_⟩
    · exact Finset.mem_range.mpr (or_pow_lt b q n (Finset.mem_range.mp hbr) hq)
    · simp [testBit_or_pow_self]
  · intro a ha
    obtain ⟨_, hab⟩ := Finset.mem_filter.mp ha
    have hat : a.testBit q = true := by
      cases h : a.testBit q
      · exact absurd h hab
      · rfl
    exact xor_pow_or a q hat
  · intro b hb
    obtain ⟨_, hbb⟩ := Finset.mem_filter.mp hb
    exact or_pow_xor b q hbb
  · intro a ha
    obtain ⟨_, hab⟩ := Finset.mem_filter.mp ha
    have hat : a.testBit q = true := by
      cases h : a.testBit q
      · exact absurd h hab
      · rfl
    rw [xor_pow_or a q hat]

/-- The 2×2 rotation preserves the squared norm of each amplitude pair. -/
theorem ry_pair_normSq (theta : ℝ) (a b : ℂ) :
    Complex.normSq ((ry theta).1 * a + (ry theta).2.1 * b) +
        Complex.normSq ((ry theta).2.2.1 * a + (ry theta).2.2.2 * b) =
      Complex.normSq a + Complex.normSq b := by
  simp only [ry]
  simp only [Complex.normSq_apply, Complex.add_re, Complex.add_im,
    Complex.mul_re, Complex.mul_im, Complex.ofReal_re, Complex.ofReal_im,
    Complex.neg_re, Complex.neg_im]
  have h := Real.sin_sq_add_cos_sq (theta / 2)
  linear_combination (a.re * a.re + a.im * a.im + b.re * b.re +
    b.im * b.im) * h

/-- One `Ry` application on any qubit `q < n` preserves the total squared
norm. -/
theorem apply_ry_norm (theta : ℝ) (q n : ℕ) (hq : q < n) (s : ℕ → ℂ) :
    norm_sum n (apply_single_qubit_gate (ry theta) q s) = norm_sum n s := by
  rw [norm_sum, norm_sum, sum_pair_split n q hq, sum_pair_split n q hq]
  refine Finset.sum_congr rfl fun i hi => ?_
  obtain ⟨_, hib⟩ := Finset.mem_filter.mp hi
  simp only [apply_single_qubit_gate, Nat.one_shiftLeft]
  rw [if_pos hib,
    if_neg (show ¬ (i ||| 2 ^ q).testBit q = false by
      simp [testBit_or_pow_self]),
    or_pow_xor i q hib]
  exact ry_pair_normSq theta (s i) (s (i ||| 2 ^ q))

/-- `_apply_cnot` reads the source state through `cnot_perm`. -/
theorem apply_cnot_eq_perm (ct tg : ℕ) (s : ℕ → ℂ) (i : ℕ) :
    apply_cnot ct tg s i = s (cnot_perm ct tg i) := by
  rw [apply_cnot, cnot_perm]
  by_cases h1 : i.testBit ct = true
  · rw [if_pos h1, if_pos h1]
    by_cases h2 : i.testBit tg = false
    · rw [if_pos h2, if_pos h2]
    · rw [if_neg h2, if_neg h2]
  · rw [if_neg h1, if_neg h1]

/-- `cnot_perm` stays below `2^n` when the target is a valid qubit. -/
theorem cnot_perm_lt (ct tg n i : ℕ) (htg : tg < n) (hi : i < 2 ^ n) :
    cnot_perm ct tg i < 2 ^ n := by
  rw [cnot_perm, Nat.one_shiftLeft]
  by_cases h1 : i.testBit ct = true
  · rw [if_pos h1]
    by_cases h2 : i.testBit tg = false
    · rw [if_pos h2]; exact or_pow_lt i tg n hi htg
    · rw [if_neg h2]; exact xor_pow_lt i tg n hi htg
  · rw [if_neg h1]; exact hi

/-- `cnot_perm` is an involution (the control and target are distinct). -/
theorem cnot_perm_invol (ct tg : ℕ) (hne : ct ≠ tg) (i : ℕ) :
    cnot_perm ct tg (cnot_perm ct tg i) = i := by
  by_cases h1 : i.testBit ct = true
  · by_cases h2 : i.testBit tg = false
    · have hinner : cnot_perm ct tg i = i ||| 2 ^ tg := by
        rw [cnot_perm, Nat.one_shiftLeft, if_pos h1, if_pos h2]
      rw [hinner, cnot_perm, Nat.one_shiftLeft,
        if_pos (show (i ||| 2 ^ tg).testBit ct = true by
          rw [testBit_or_pow_other i tg ct hne]; exact h1),
        if_neg (show ¬ (i ||| 2 ^ tg).testBit tg = false by
          simp [testBit_or_pow_self]),
        or_pow_xor i tg h2]
    · have h2t : i.testBit tg = true := by
        cases h : i.testBit tg
        · exact absurd h h2
        · rfl
      have hinner : cnot_perm ct tg i = i ^^^ 2 ^ tg := by
        rw [cnot_perm, Nat.one_shiftLeft, if_pos h1, if_neg h2]
      rw [hinner, cnot_perm, Nat.one_shiftLeft,
        if_pos (show (i ^^^ 2 ^ tg).testBit ct = true by
          rw [testBit_xor_pow_other i tg ct hne]; exact h1),
        if_pos (show (i ^^^ 2 ^ tg).testBit tg = false by
          rw [testBit_xor_pow_self, h2t]; rfl),
        xor_pow_or i tg h2t]
  · have houter : cnot_perm ct tg i = i := by rw [cnot_perm, if_neg h1]
    rw [houter, houter]

/-- One CNOT application (valid target, distinct control) preserves the total
squared norm: it permutes the amplitudes. -/
theorem apply_cnot_norm (ct tg n : ℕ) (htg : tg < n) (hne : ct ≠ tg)
    (s : ℕ → ℂ) :
    norm_sum n (apply_cnot ct tg s) = norm_sum n s := by
  rw [norm_sum, norm_sum]
  refine Finset.sum_nbij' (cnot_perm ct tg) (cnot_perm ct tg) ?_ ?_ ?_ ?_ ?_
  · intro a ha
    exact Finset.mem_range.mpr
      (cnot_perm_lt ct tg n a htg (Finset.mem_range.mp ha))
  · intro a ha
    exact Finset.mem_range.mpr
      (cnot_perm_lt ct tg n a htg (Finset.mem_range.mp ha))
  · intro a _
    exact cnot_perm_invol ct tg hne a
  · intro a _
    exact cnot_perm_invol ct tg hne a
  · intro a _
    rw [apply_cnot_eq_perm]

/-- The initial all-zero basis state has unit squared norm. -/
theorem norm_sum_init (n : ℕ) :
    norm_sum n (fun i => if i = 0 then (1 : ℂ) else 0) = 1 := by
  rw [norm_sum, Finset.sum_eq_single 0]
  · simp
  · intro b _ hb
    simp [hb]
  · intro h0
    exact absurd (Finset.mem_range.mpr (Nat.pos_pow_of_pos n (by norm_num))) h0

/-- The rotation layer preserves the squared norm as long as every indexed
qubit is in range. -/
theorem rot_fold_norm (n : ℕ) :
    ∀ (l : List (ℕ × ℝ)) (s : ℕ → ℂ), (∀ p ∈ l, p.1 < n) →
      norm_sum n
          (l.foldl (fun st p => apply_single_qubit_gate (ry p.2) p.1 st) s) =
        norm_sum n s := by
  intro l
  induction l with
  | nil => intro s _; rfl
  | cons p t ih =>
      intro s h
      rw [List.foldl_cons, ih _ (fun x hx => h x (List.mem_cons_of_mem p hx)),
        apply_ry_norm p.2 p.1 n (h p (List.mem_cons_self p t)) s]

/-- The CNOT chain preserves the squared norm as long as every target is in
range. -/
theorem cnot_fold_norm (n : ℕ) :
    ∀ (l : List ℕ) (s : ℕ → ℂ), (∀ q ∈ l, q + 1 < n) →
      norm_sum n (l.foldl (fun st idx => apply_cnot idx (idx + 1) st) s) =
        norm_sum n s := by
  intro l
  induction l with
  | nil => intro s _; rfl
  | cons q t ih =>
      intro s h
      rw [List.foldl_cons, ih _ (fun x hx => h x (List.mem_cons_of_mem q hx)),
        apply_cnot_norm q (q + 1) n (h q (List.mem_cons_self q t))
          (Nat.ne_of_lt (Nat.lt_succ_self q)) s]

/-- The prepared statevector always has unit squared norm. -/
theorem statevector_norm (thetas : List ℝ) :
    norm_sum thetas.length (statevector_from_thetas thetas) = 1 := by
  simp only [statevector_from_thetas]
  rw [cnot_fold_norm thetas.length (List.range (thetas.length - 1)) _
    (fun q hq => by have := List.mem_range.mp hq; omega)]
  rw [rot_fold_norm thetas.length thetas.enum _ ?henum]
  · exact norm_sum_init thetas.length
  case henum =>
    intro p hp
    have hsome := List.mem_enum_iff_getElem?.mp hp
    by_contra hge
    rw [List.getElem?_eq_none (by omega)] at hsome
    exact Option.noConfusion hsome

/-- The listed probabilities sum to the statevector's squared norm. -/
theorem probs_of_sum (thetas : List ℝ) :
    (probs_of thetas).sum = norm_sum thetas.length (statevector_from_thetas thetas) := by
  rw [probs_of, list_sum_map_range, norm_sum]
  exact Finset.sum_congr rfl fun i _ => Complex.sq_abs _

/-- Claim C3: for any angle vector with `1 ≤ N ≤ 4` (the property in fact
needs no upper bound), every output probability is non-negative and the
probabilities sum to 1 within `1e-9` absolute tolerance (in the real-number
idealisation the sum is exactly 1); moreover the squared norm is preserved by
every individual gate application, rotation or CNOT. -/
theorem claim3_probabilities (thetas : List ℝ) (h1 : 1 ≤ thetas.length)
    (h4 : thetas.length ≤ 4) :
    (∀ p ∈ probs_of thetas, 0 ≤ p) ∧
      |(probs_of thetas).sum - 1| ≤ 1 / 10 ^ 9 ∧
      (∀ (theta : ℝ) (q n : ℕ) (s : ℕ → ℂ), q < n →
        norm_sum n (apply_single_qubit_gate (ry theta) q s) = norm_sum n s) ∧
      (∀ (ct tg n : ℕ) (s : ℕ → ℂ), tg < n → ct ≠ tg →
        norm_sum n (apply_cnot ct tg s) = norm_sum n s) := by
  refine ⟨?_, ?_, ?_, ?_⟩
  · intro p hp
    rw [probs_of] at hp
    obtain ⟨i, _, rfl⟩ := List.mem_map.mp hp
    exact sq_nonneg _
  · rw [probs_of_sum, statevector_norm]
    norm_num
  · intro theta q n s hq
    exact apply_ry_norm theta q n hq s
  · intro ct tg n s htg hne
    exact apply_cnot_norm ct tg n htg hne s

/-- Witness for C3 at the one-element angle vector `[0]`. -/
theorem claim3_probabilities_witness :
    (∀ p ∈ probs_of [(0 : ℝ)], 0 ≤ p) ∧
      |(probs_of [(0 : ℝ)]).sum - 1| ≤ 1 / 10 ^ 9 ∧
      (∀ (theta : ℝ) (q n : ℕ) (s : ℕ → ℂ), q < n →
        norm_sum n (apply_single_qubit_gate (ry theta) q s) = norm_sum n s) ∧
      (∀ (ct tg n : ℕ) (s : ℕ → ℂ), tg < n → ct ≠ tg →
        norm_sum n (apply_cnot ct tg s) = norm_sum n s) :=
  claim3_probabilities [(0 : ℝ)] le_rfl (by norm_num)

/-- Advancing twice composes. -/
theorem advance_advance (g : Rng) (m n : ℕ) :
    (g.advance m).advance n = g.advance (m + n) := by
  simp [Rng.advance, Nat.add_assoc]

/-- `measure_expectation_z` on valid arguments: the mean of the signed
outcomes, with the generator advanced by exactly `2·shots` draws. -/
theorem mez_ok (shots : ℤ) (p_flip : ℝ) (hs : 0 < shots) (h0 : 0 ≤ p_flip)
    (h1 : p_flip ≤ 1) (theta : ℝ) (g : Rng) :
    measure_expectation_z theta shots p_flip g =
      (.ok (mez_val theta shots p_flip g), g.advance (2 * shots.toNat)) := by
  rw [measure_expectation_z, if_neg (not_le.mpr hs),
    if_neg (not_not_intro ⟨h0, h1⟩)]
  simp only [shot_loop_rng]
  rfl

/-- `run_experiment` on valid arguments: returns the measured mean and
appends exactly one trial at the wrapped angle. -/
theorem run_experiment_ok (shots : ℤ) (p_flip : ℝ) (hs : 0 < shots)
    (h0 : 0 ≤ p_flip) (h1 : p_flip ≤ 1) (step : ℤ) (theta : ℝ)
    (lab : AutonomousQuantumLab) :
    run_experiment step theta shots p_flip lab =
      (.ok (mez_val (wrap_angle theta) shots p_flip lab.rng),
        ⟨lab.rng.advance (2 * shots.toNat),
          lab.trials ++ [⟨step, wrap_angle theta, shots, p_flip,
            mez_val (wrap_angle theta) shots p_flip lab.rng⟩]⟩) := by
  rw [run_experiment, mez_ok shots p_flip hs h0 h1]

/-- For valid arguments the SPSA loop never fails, appends exactly the
claim-side trajectory to the ledger, and consumes `6·shots + 1` draws per
iteration. -/
theorem spsa_loop_eq_traj (shots : ℤ) (p_flip a c : ℝ) (hs : 0 < shots)
    (h0 : 0 ≤ p_flip) (h1 : p_flip ≤ 1) :
    ∀ (fuel k : ℕ) (theta : ℝ) (lab : AutonomousQuantumLab),
      spsa_loop shots p_flip a c fuel k theta lab =
        (.ok (), ⟨lab.rng.advance (fuel * (6 * shots.toNat + 1)),
          lab.trials ++ spsa_traj shots p_flip a c fuel k theta lab.rng⟩) := by
  intro fuel
  induction fuel with
  | zero =>
      intro k theta lab
      simp [spsa_loop, spsa_traj, Rng.advance]
  | succ m ih =>
      intro k theta lab
      simp only [spsa_loop, spsa_traj, mez_ok shots p_flip hs h0 h1,
        run_experiment_ok shots p_flip hs h0 h1, ih, advance_advance,
        Rng.next, Rng.advance, List.append_assoc, List.singleton_append]
      ring_nf

/-- The claim-side trajectory has exactly one trial per iteration. -/
theorem spsa_traj_length (shots : ℤ) (p_flip a c : ℝ) :
    ∀ (fuel k : ℕ) (theta : ℝ) (g : Rng),
      (spsa_traj shots p_flip a c fuel k theta g).length = fuel := by
  intro fuel
  induction fuel with
  | zero => intro k theta g; rfl
  | succ m ih =>
      intro k theta g
      simp only [spsa_traj, List.length_cons, ih]

/-- The claim-side trajectory records steps `k, k+1, …` in order. -/
theorem spsa_traj_steps (shots : ℤ) (p_flip a c : ℝ) :
    ∀ (fuel k : ℕ) (theta : ℝ) (g : Rng),
      (spsa_traj shots p_flip a c fuel k theta g).map (fun t => t.step) =
        (List.range fuel).map (fun i => ((k + i : ℕ) : ℤ)) := by
  intro fuel
  induction fuel with
  | zero => intro k theta g; rfl
  | succ m ih =>
      intro k theta g
      simp only [spsa_traj, List.map_cons, ih]
      rw [List.range_succ_eq_map, List.map_cons, List.map_map]
      congr 1
      refine List.map_congr_left fun i _ => ?_
      simp only [Function.comp_apply]
      push_cast
      ring

/-- `measure_energy` on valid arguments: returns `ok` with its denotation. -/
theorem me_ok (shots : ℤ) (p_flip : ℝ) (hs : 0 < shots) (h0 : 0 ≤ p_flip)
    (h1 : p_flip ≤ 1) (thetas : List ℝ) (g : Rng) :
    measure_energy thetas shots p_flip g =
      (.ok (me_val thetas shots p_flip g), me_rng thetas shots p_flip g) := by
  rw [measure_energy, if_neg (not_le.mpr hs), if_neg (not_not_intro ⟨h0, h1⟩)]
  rfl

/-- For valid arguments the multi-qubit SPSA loop never fails and appends
exactly its denotation `multi_run`. -/
theorem spsa_multi_loop_eq (shots : ℤ) (p_flip a c : ℝ) (hs : 0 < shots)
    (h0 : 0 ≤ p_flip) (h1 : p_flip ≤ 1) :
    ∀ (fuel k : ℕ) (thetas : List ℝ) (bg lg : Rng) (mem : List MultiTrial),
      spsa_multi_loop shots p_flip a c fuel k thetas bg lg mem =
        (.ok (), (multi_run shots p_flip a c fuel k thetas bg lg).1,
          (multi_run shots p_flip a c fuel k thetas bg lg).2.1,
          mem ++ (multi_run shots p_flip a c fuel k thetas bg lg).2.2) := by
  intro fuel
  induction fuel with
  | zero =>
      intro k thetas bg lg mem
      simp [spsa_multi_loop, multi_run]
  | succ m ih =>
      intro k thetas bg lg mem
      simp only [spsa_multi_loop, multi_run, me_ok shots p_flip hs h0 h1, ih,
        List.append_assoc, List.singleton_append]

/-- `multi_run` appends exactly one trial per iteration. -/
theorem multi_run_length (shots : ℤ) (p_flip a c : ℝ) :
    ∀ (fuel k : ℕ) (thetas : List ℝ) (bg lg : Rng),
      (multi_run shots p_flip a c fuel k thetas bg lg).2.2.length = fuel := by
  intro fuel
  induction fuel with
  | zero => intro k thetas bg lg; rfl
  | succ m ih =>
      intro k thetas bg lg
      simp only [multi_run, List.length_cons, ih]

/-- `multi_run` records steps `k, k+1, …` in order. -/
theorem multi_run_steps (shots : ℤ) (p_flip a c : ℝ) :
    ∀ (fuel k : ℕ) (thetas : List ℝ) (bg lg : Rng),
      (multi_run shots p_flip a c fuel k thetas bg lg).2.2.map
          (fun t => t.step) =
        (List.range fuel).map (fun i => ((k + i : ℕ) : ℤ)) := by
  intro fuel
  induction fuel with
  | zero => intro k thetas bg lg; rfl
  | succ m ih =>
      intro k thetas bg lg
      simp only [multi_run, List.map_cons, ih]
      rw [List.range_succ_eq_map, List.map_cons, List.map_map]
      congr 1
      refine List.map_congr_left fun i _ => ?_
      simp only [Function.comp_apply]
      push_cast
      ring

/-- Claim C8: on valid inputs the SPSA optimizer runs exactly `steps`
iterations with no early stopping — the appended trials are exactly the
claim-side trajectory `spsa_traj` (one trial per iteration `k = 1..steps`,
each recording the third evaluation at the freshly updated wrapped
parameters, with gains `a/k^0.602`, `c/k^0.101` and gradient
`(E⁺−E⁻)/(2·c_k·δ)`) — and the returned result is `ledger.best()`, not the
final iterate; the multi-qubit variant likewise runs exactly `steps`
iterations, one trial per iteration. -/
theorem claim8_spsa_structure (shots : ℤ) (p_flip : ℝ) (steps : ℤ) (a c : ℝ)
    (lab : AutonomousQuantumLab) (n_qubits seed : ℕ) (bg : Rng)
    (hsteps : 0 < steps) (ha : 0 < a) (hc : 0 < c) (hs : 0 < shots)
    (h0 : 0 ≤ p_flip) (h1 : p_flip ≤ 1) :
    (spsa_traj shots p_flip a c steps.toNat 1 (lab.rng.next.1 * 2 * π)
        lab.rng.next.2).length = steps.toNat ∧
      (spsa_traj shots p_flip a c steps.toNat 1 (lab.rng.next.1 * 2 * π)
          lab.rng.next.2).map (fun t => t.step) =
        (List.range steps.toNat).map (fun i => ((1 + i : ℕ) : ℤ)) ∧
      (∃ t, spsa_optimize shots p_flip steps a c lab =
          (.ok t,
            ⟨lab.rng.next.2.advance (steps.toNat * (6 * shots.toNat + 1)),
              lab.trials ++ spsa_traj shots p_flip a c steps.toNat 1
                (lab.rng.next.1 * 2 * π) lab.rng.next.2⟩) ∧
        DiachronicMemory.best (lab.trials ++ spsa_traj shots p_flip a c
          steps.toNat 1 (lab.rng.next.1 * 2 * π) lab.rng.next.2) = some t) ∧
      (∃ mem bg2, spsa_optimize_multi n_qubits steps shots p_flip a c seed bg =
          (.ok mem, bg2) ∧ mem.length = steps.toNat ∧
        mem.map (fun t => t.step) =
          (List.range steps.toNat).map (fun i => ((1 + i : ℕ) : ℤ))) := by
  refine ⟨spsa_traj_length shots p_flip a c steps.toNat 1 _ _,
    spsa_traj_steps shots p_flip a c steps.toNat 1 _ _, ?_, ?_⟩
  · have hne : lab.trials ++ spsa_traj shots p_flip a c steps.toNat 1
        (lab.rng.next.1 * 2 * π) lab.rng.next.2 ≠ [] := by
      intro hnil
      have hlen := congrArg List.length hnil
      rw [List.length_append, spsa_traj_length] at hlen
      simp only [List.length_nil] at hlen
      omega
    obtain ⟨t, l1, l2, hbest, _, _, _⟩ :=
      firstMinBy_spec (fun t => t.measured_energy) _ hne
    refine ⟨t, ?_, hbest⟩
    rw [spsa_optimize, if_neg (not_le.mpr hsteps),
      if_neg (show ¬ (a ≤ 0 ∨ c ≤ 0) from
        not_or.mpr ⟨not_le.mpr ha, not_le.mpr hc⟩)]
    simp only [spsa_loop_eq_traj shots p_flip a c hs h0 h1,
      DiachronicMemory.best]
    rw [hbest]
  · rw [spsa_optimize_multi]
    simp only [spsa_multi_loop_eq shots p_flip a c hs h0 h1,
      List.nil_append]
    exact ⟨_, _, rfl, multi_run_length shots p_flip a c steps.toNat 1 _ _ _,
      multi_run_steps shots p_flip a c steps.toNat 1 _ _ _⟩

/-- Witness for C8 at one step, one shot, `p_flip = 0`, `a = c = 1`. -/
theorem claim8_spsa_structure_witness :
    (spsa_traj 1 0 1 1 (1 : ℤ).toNat 1 ((Rng.next ⟨fun _ => 0, 0⟩).1 * 2 * π)
        (Rng.next ⟨fun _ => 0, 0⟩).2).length = (1 : ℤ).toNat ∧
      (spsa_traj 1 0 1 1 (1 : ℤ).toNat 1 ((Rng.next ⟨fun _ => 0, 0⟩).1 * 2 * π)
          (Rng.next ⟨fun _ => 0, 0⟩).2).map (fun t => t.step) =
        (List.range (1 : ℤ).toNat).map (fun i => ((1 + i : ℕ) : ℤ)) ∧
      (∃ t, spsa_optimize 1 0 1 1 1 ⟨⟨fun _ => 0, 0⟩, []⟩ =
          (.ok t,
            ⟨(Rng.next ⟨fun _ => 0, 0⟩).2.advance
                ((1 : ℤ).toNat * (6 * (1 : ℤ).toNat + 1)),
              ([] : List Trial) ++ spsa_traj 1 0 1 1 (1 : ℤ).toNat 1
                ((Rng.next ⟨fun _ => 0, 0⟩).1 * 2 * π)
                (Rng.next ⟨fun _ => 0, 0⟩).2⟩) ∧
        DiachronicMemory.best (([] : List Trial) ++ spsa_traj 1 0 1 1
          (1 : ℤ).toNat 1 ((Rng.next ⟨fun _ => 0, 0⟩).1 * 2 * π)
          (Rng.next ⟨fun _ => 0, 0⟩).2) = some t) ∧
      (∃ mem bg2, spsa_optimize_multi 1 1 1 0 1 1 0 ⟨fun _ => 1/3, 5⟩ =
          (.ok mem, bg2) ∧ mem.length = (1 : ℤ).toNat ∧
        mem.map (fun t => t.step) =
          (List.range (1 : ℤ).toNat).map (fun i => ((1 + i : ℕ) : ℤ))) :=
  claim8_spsa_structure 1 0 1 1 1 ⟨⟨fun _ => 0, 0⟩, []⟩ 1 0 ⟨fun _ => 1/3, 5⟩
    one_pos one_pos one_pos one_pos le_rfl zero_le_one

end QuantumLab
